import Mathlib

/-!
Shallow embedding of the streamer media engine core
(internal/media: buffered_file_resource.go, registry.go, limiter.go,
resolver.go) together with proofs about the specified properties.

Bytes are modelled as natural numbers, file contents as byte lists,
Go maps as association lists whose insert replaces the key, UUIDs as
naturals (0 playing the role of uuid.Nil), and Go errors as a tree of
sentinel values so that errors.Is corresponds to membership in the
wrap chain.
-/

namespace Streamer

/-! Buffered file resource (internal/media/buffered_file_resource.go).

The state holds the immutable content of the underlying file, the
descriptor position, the buffered-but-undelivered bytes of the
bufio.Reader, and the reader capacity.  bufio.NewReaderSize raises any
requested size below 16 to 16. -/

inductive Whence where
  | start
  | current
  | fromEnd
deriving DecidableEq

structure BufFile where
  content : List Nat
  pos : Nat
  buf : List Nat
  cap : Nat
deriving DecidableEq

def bufCapacity (requested : Nat) : Nat := max requested 16

def initBufFile (content : List Nat) (bufferSize : Nat) : BufFile :=
  ⟨content, 0, [], bufCapacity bufferSize⟩

/-- os.File.Seek on a regular file: computes the target position from the
whence flag and fails on a negative target, otherwise moves the
descriptor there (seeking past the end is allowed). -/
def fileSeek (b : BufFile) (offset : Int) (w : Whence) : Except String Int :=
  let target : Int :=
    match w with
    | .start => offset
    | .current => (b.pos : Int) + offset
    | .fromEnd => (b.content.length : Int) + offset
  if target < 0 then .error ("seek to negative position") else .ok target

/-- The logical position of the buffered resource: the descriptor is
always ahead of the caller by the buffered-but-undelivered byte count. -/
def logicalPos (b : BufFile) : Nat := b.pos - b.buf.length

/-- bufio.Reader.Read: with a non-empty buffer, deliver from the buffer;
with an empty buffer either read directly past it (when the request is
at least the buffer capacity) or refill with one descriptor read and
deliver from the refilled buffer.  A descriptor read at position pos
returns the next min(requested, remaining) bytes of the content. -/
def bufferedRead (b : BufFile) (n : Nat) : List Nat × BufFile :=
  if n = 0 then ([], b)
  else if b.buf.isEmpty then
    if b.cap ≤ n then
      let chunk := (b.content.drop b.pos).take n
      (chunk, { b with pos := b.pos + chunk.length })
    else
      let fill := (b.content.drop b.pos).take b.cap
      let chunk := fill.take n
      (chunk, { b with pos := b.pos + fill.length, buf := fill.drop n })
  else
    (b.buf.take n, { b with buf := b.buf.drop n })

/-- BufferedFileResource.Seek: a zero-offset relative seek answers the
current logical position without touching the buffer; a forward
relative seek within the buffered window discards buffered bytes only;
any other seek translates a relative offset by the buffered count,
seeks the descriptor and resets the buffer. -/
def bufferedSeek (b : BufFile) (offset : Int) (whence : Whence) :
    Except String (Int × BufFile) :=
  if whence = .current ∧ offset = 0 then
    match fileSeek b 0 .current with
    | .error e => .error e
    | .ok curPos => .ok (curPos - (b.buf.length : Int), b)
  else if whence = .current ∧ 0 < offset ∧ offset ≤ (b.buf.length : Int) then
    let b2 : BufFile := { b with buf := b.buf.drop offset.toNat }
    match fileSeek b2 0 .current with
    | .error e => .error e
    | .ok curPos => .ok (curPos - (b2.buf.length : Int), b2)
  else
    let offset2 := if whence = .current then offset - (b.buf.length : Int) else offset
    match fileSeek b offset2 whence with
    | .error e => .error e
    | .ok newPos => .ok (newPos, { b with pos := newPos.toNat, buf := [] })

/-- One client operation against a buffered resource. -/
inductive BufOp where
  | read (n : Nat)
  | seek (offset : Int) (whence : Whence)

/-- Apply one operation, keeping only the state (a failed seek leaves
the state untouched, as the Go method returns before mutating). -/
def applyOp (b : BufFile) : BufOp → BufFile
  | .read n => (bufferedRead b n).2
  | .seek off w =>
    match bufferedSeek b off w with
    | .error _ => b
    | .ok r => r.2

/-- The resource state after an arbitrary read/seek history against a
freshly opened buffered resource. -/
def runOps (content : List Nat) (bufferSize : Nat) (ops : List BufOp) : BufFile :=
  ops.foldl applyOp (initBufFile content bufferSize)

/-- Helper for readFull: each successful Read delivers at least one
byte, so m calls always suffice to gather m bytes; the first argument
is that fuel. -/
def readFullAux : Nat → BufFile → Nat → List Nat × BufFile
  | 0, b, _ => ([], b)
  | fuel + 1, b, m =>
    if m = 0 then ([], b)
    else
      match bufferedRead b m with
      | (bs, b2) =>
        if bs = [] then ([], b2)
        else
          match readFullAux fuel b2 (m - bs.length) with
          | (rest, b3) => (bs ++ rest, b3)

/-- Read until m bytes have been gathered or a read returns no bytes
(end of file), iterating single Read calls like io.ReadFull. -/
def readFull (b : BufFile) (m : Nat) : List Nat × BufFile :=
  readFullAux m b m

/-- The state left behind by a zero-offset relative seek (the current
position query); used to state that the query perturbs nothing. -/
def afterPositionQuery (b : BufFile) : BufFile :=
  match bufferedSeek b 0 .current with
  | .error _ => b
  | .ok r => r.2

/-- Structural invariant of the buffered resource: the buffer holds
exactly the content bytes between the logical position and the
descriptor position. -/
def BufInv (b : BufFile) : Prop :=
  b.buf.length ≤ b.pos ∧ b.buf = (b.content.drop (b.pos - b.buf.length)).take b.buf.length

/-! Go maps as association lists: insert replaces any previous binding
of the key, erase drops all bindings of the key. -/

def mapLookup {κ α : Type} [DecidableEq κ] : List (κ × α) → κ → Option α
  | [], _ => none
  | (k, v) :: m, k2 => if k2 = k then some v else mapLookup m k2

def mapErase {κ α : Type} [DecidableEq κ] : List (κ × α) → κ → List (κ × α)
  | [], _ => []
  | (k1, v1) :: m, k =>
    if k1 = k then mapErase m k else (k1, v1) :: mapErase m k

def mapInsert {κ α : Type} [DecidableEq κ] (m : List (κ × α)) (k : κ) (v : α) :
    List (κ × α) :=
  (k, v) :: mapErase m k

/-! Registry (internal/media/registry.go). -/

/-- uuid.Nil modelled as the natural number 0. -/
def nilUUID : Nat := 0

structure Entry where
  uuid : Nat
  volumeID : String
  path : String
  name : String
  category : String
  size : Int
deriving DecidableEq

/-- The two indexes of the registry: byUUID maps identifiers to entries
and byPath maps paths to identifiers. -/
structure Registry where
  byUUID : List (Nat × Entry)
  byPath : List (String × Nat)
deriving DecidableEq

def emptyRegistry : Registry := ⟨[], []⟩

/-- NewEntry: rejects an empty volume id, path or name and a zero size,
otherwise builds the entry around a freshly generated identifier
(identifier generation is supplied by the caller of the model). -/
def NewEntry (id : Nat) (volID path name category : String) (size : Int) :
    Option Entry :=
  if volID = "" ∨ path = "" ∨ name = "" ∨ size = 0 then none
  else some ⟨id, volID, path, name, category, size⟩

/-- Registry.Add: no-op on a nil entry, otherwise store the entry in
both indexes. -/
def Registry.add (r : Registry) (e : Option Entry) : Registry :=
  match e with
  | none => r
  | some e =>
    ⟨mapInsert r.byUUID e.uuid e, mapInsert r.byPath e.path e.uuid⟩

/-- Registry.Remove: no-op on an empty or unknown path, otherwise drop
the path from byPath and the identifier it mapped to from byUUID. -/
def Registry.remove (r : Registry) (path : String) : Registry :=
  if path = "" then r
  else
    match mapLookup r.byPath path with
    | none => r
    | some u => ⟨mapErase r.byUUID u, mapErase r.byPath path⟩

/-- Lexicographic byte-wise comparison of strings as character lists,
matching how Go compares the strings of the List sort comparator. -/
def charListLE : List Char → List Char → Bool
  | [], _ => true
  | _ :: _, [] => false
  | a :: as, b :: bs =>
    if a.toNat < b.toNat then true
    else if b.toNat < a.toNat then false
    else charListLE as bs

/-- The name comparison used by Registry.List via slices.SortFunc: the
comparator inspects only the entry name. -/
def nameLE (a b : Entry) : Prop := charListLE a.name.data b.name.data = true

instance : DecidableRel nameLE :=
  fun a b => inferInstanceAs (Decidable (charListLE a.name.data b.name.data = true))

/-- Registry.List: Go iterates the byUUID map in an unspecified order
(given here as the explicit argument) and then sorts the copied
entries with a comparator that inspects only names; ties between equal
names stay in whatever order the map iteration produced. -/
def listSnapshot (iteration : List Entry) : List Entry :=
  List.insertionSort nameLE iteration

/-- One admitted file recorded by the filesystem walk of Scan. -/
structure FileMeta where
  path : String
  name : String
  category : String
  size : Int
deriving DecidableEq

/-- The deletion condition of the Scan apply phase: an entry of the
scanned volume whose path was not seen by the walk. -/
def isVictim (volID : String) (metaPaths : List String) (e : Entry) : Bool :=
  decide (e.volumeID = volID) && !(metaPaths.contains e.path)

/-- The deletion pass of Registry.Scan: every victim is removed from
byUUID and its path removed from byPath. -/
def Registry.scanRemove (r : Registry) (volID : String) (metaPaths : List String) :
    Registry :=
  let victims := r.byUUID.filter (fun p => isVictim volID metaPaths p.2)
  ⟨r.byUUID.filter (fun p => !(isVictim volID metaPaths p.2)),
    r.byPath.filter (fun q => !((victims.map (fun p => p.2.path)).contains q.1))⟩

/-- The addition pass of Registry.Scan as written in registry.go.  For
a walked path absent from byPath the code reads byUUID at the zero
value left in existingUUID and dereferences the resulting entry
pointer; when uuid.Nil has no entry that pointer is nil and the Go
program panics, modelled by none.  The counter supplies the
monotonically generated identifiers; generation happens only after
NewEntry validation passes. -/
def Registry.scanAddLoop (volID : String) :
    List (String × FileMeta) → Registry → Nat → Option (Registry × Nat)
  | [], r, c => some (r, c)
  | (p, m) :: rest, r, c =>
    match mapLookup r.byPath p with
    | some _ => Registry.scanAddLoop volID rest r c
    | none =>
      match mapLookup r.byUUID nilUUID with
      | none => none
      | some e0 =>
        if e0.volumeID ≠ volID then Registry.scanAddLoop volID rest r c
        else
          match NewEntry c volID m.path m.name m.category m.size with
          | none => Registry.scanAddLoop volID rest r c
          | some e =>
            Registry.scanAddLoop volID rest
              ⟨mapInsert r.byUUID e.uuid e, mapInsert r.byPath e.path e.uuid⟩ (c + 1)

/-- Registry.Scan after the walk has produced its path-keyed metadata
map: apply the deletions for the scanned volume, then run the addition
loop.  none models a panic of the addition loop. -/
def Registry.scan (r : Registry) (volID : String) (meta : List (String × FileMeta))
    (c : Nat) : Option (Registry × Nat) :=
  Registry.scanAddLoop volID meta (r.scanRemove volID (meta.map Prod.fst)) c

/-- The agreement stated for the two indexes: every identifier in
byUUID is reachable from exactly one path in byPath, namely the path
carried by its entry, and every path in byPath maps to an identifier
present in byUUID. -/
def Registry.Agree (r : Registry) : Prop :=
  (∀ u e, mapLookup r.byUUID u = some e →
      mapLookup r.byPath e.path = some u ∧
      ∀ p, mapLookup r.byPath p = some u → p = e.path) ∧
  (∀ p u, mapLookup r.byPath p = some u → ∃ e, mapLookup r.byUUID u = some e)

/-! IOLimiter (internal/media/limiter.go): a buffered channel used as a
counting semaphore.  The state is the number of occupied slots. -/

inductive AcquireResult where
  | ok
  | cancelledErr
deriving DecidableEq

/-- TryAcquire: a select between the cancellation signal and a channel
send.  ctxFired says whether the signal has fired, preferCtx resolves
the nondeterministic select choice when both branches are ready; none
models the call still blocking (no branch ready). -/
def tryAcquire (cap count : Nat) (ctxFired preferCtx : Bool) :
    Option (AcquireResult × Nat) :=
  if ctxFired ∧ (count = cap ∨ preferCtx = true) then some (.cancelledErr, count)
  else if count < cap then some (.ok, count + 1)
  else none

/-- One event against the limiter. -/
inductive LimEvent where
  | acquire (ctxFired preferCtx : Bool)
  | release

/-- Run a sequence of limiter events from a given occupancy, recording
each acquire outcome; none when an event blocks for ever. -/
def runLimiter (cap : Nat) : List LimEvent → Nat → Option (List AcquireResult × Nat)
  | [], n => some ([], n)
  | .acquire cf pc :: evs, n =>
    match tryAcquire cap n cf pc with
    | none => none
    | some (res, n2) =>
      match runLimiter cap evs n2 with
      | none => none
      | some (rs, m) => some (res :: rs, m)
  | .release :: evs, n =>
    if 0 < n then runLimiter cap evs (n - 1) else none

def countOk : List AcquireResult → Nat
  | [] => 0
  | .ok :: rs => countOk rs + 1
  | .cancelledErr :: rs => countOk rs

def countRelease : List LimEvent → Nat
  | [] => 0
  | .release :: evs => countRelease evs + 1
  | .acquire _ _ :: evs => countRelease evs

/-! Path-confined opening (internal/media/resolver.go).  Go errors are
modelled as a wrap tree; errorIs walks the tree like errors.Is walks
the unwrap chain. -/

inductive GoError where
  | fsErrInvalid
  | fsErrNotExist
  | fsErrPermission
  | errPathOutsideRoot
  | other (msg : String)
  | wrapped (op : String) (inner : GoError)
  | wrapped2 (outer inner : GoError)
deriving DecidableEq

def errorIs : GoError → GoError → Bool
  | e, t =>
    decide (e = t) ||
      match e with
      | .wrapped _ i => errorIs i t
      | .wrapped2 a b => errorIs a t || errorIs b t
      | _ => false

/-- How the filesystem resolves a (root, relative path) pair. -/
inductive OpenOutcome where
  | escapes
  | notFound
  | permission
  | otherErr (msg : String)
  | opened (fd : Nat)

/-- Modelled from the spec: os.OpenInRoot is standard-library code not
part of this repository; per its documented contract (quoted by the
resolver comment) a path whose resolution escapes the root fails with
an error matching fs.ErrInvalid, a missing file with fs.ErrNotExist, a
permission failure with fs.ErrPermission, each wrapped in a PathError. -/
def osOpenInRoot (resolve : String → String → OpenOutcome) (root rel : String) :
    Except GoError Nat :=
  match resolve root rel with
  | .escapes => .error (.wrapped ("openat") .fsErrInvalid)
  | .notFound => .error (.wrapped ("openat") .fsErrNotExist)
  | .permission => .error (.wrapped ("openat") .fsErrPermission)
  | .otherErr s => .error (.other s)
  | .opened fd => .ok fd

/-- Manager.OpenFile: classify the os.OpenInRoot failure — an error
matching fs.ErrInvalid is wrapped together with ErrPathOutsideRoot,
every other error is returned unchanged. -/
def openFile (resolve : String → String → OpenOutcome) (root rel : String) :
    Except GoError Nat :=
  match osOpenInRoot resolve root rel with
  | .ok f => .ok f
  | .error err =>
    if errorIs err .fsErrInvalid then .error (.wrapped2 .errPathOutsideRoot err)
    else .error err

/-- The error produced by openFile for an escaping path. -/
def pathEscapeError : GoError :=
  .wrapped2 .errPathOutsideRoot (.wrapped ("openat") .fsErrInvalid)

/-- The error produced by os.OpenInRoot for a missing file. -/
def notFoundError : GoError := .wrapped ("openat") .fsErrNotExist

/-- The error produced by os.OpenInRoot for a permission failure. -/
def permissionError : GoError := .wrapped ("openat") .fsErrPermission

/-- The rejection condition of NewEntry, independent of the generated
identifier. -/
def entryInvalid (volID path name : String) (size : Int) : Prop :=
  volID = "" ∨ path = "" ∨ name = "" ∨ size = 0

/-- A walked path that the addition loop leaves alone when revisited in
the given registry state: either its path is already indexed, or the
uuid.Nil entry diverts the loop away from an insertion (wrong volume,
or metadata that NewEntry rejects). -/
def settled (v : String) (r : Registry) (x : String × FileMeta) : Prop :=
  (∃ u, mapLookup r.byPath x.1 = some u) ∨
  (∃ e0, mapLookup r.byUUID nilUUID = some e0 ∧
    (e0.volumeID ≠ v ∨ entryInvalid v x.2.path x.2.name x.2.size))

/-! Concrete values used by counterexamples and witnesses. -/

/-- "0123456789ABCDEFGHIJ", the 20-byte content of the repository's own
buffered-resource test. -/
def contentW : List Nat :=
  [48, 49, 50, 51, 52, 53, 54, 55, 56, 57, 65, 66, 67, 68, 69, 70, 71, 72, 73, 74]

def entA : Entry := ⟨1, "v", "p", "n", "c", 1⟩

def entB : Entry := ⟨2, "v", "p", "n", "c", 1⟩

/-- Two entries registered one after the other under the same path. -/
def clashReg : Registry := (emptyRegistry.add (some entA)).add (some entB)

def entN1 : Entry := ⟨1, "v", "p1", "same", "c", 1⟩

def entN2 : Entry := ⟨2, "v", "p2", "same", "c", 1⟩

def entD1 : Entry := ⟨1, "v", "p1", "alpha", "c", 1⟩

def entD2 : Entry := ⟨2, "v", "p2", "beta", "c", 1⟩

/-- An entry of the scanned volume whose file has disappeared from the
walk: the removal phase must delete it. -/
def entGone : Entry := ⟨1, "vol1", "gone.mp4", "gone", "c", 3⟩

/-- An entry of a different volume: the removal phase must leave it
alone even though its path is absent from the walk. -/
def entOther : Entry := ⟨2, "vol2", "other.mp4", "other", "c", 3⟩

/-- An entry registered under the zero identifier (uuid.Nil), the only
state in which the addition loop survives its existingUUID dereference
and reaches NewEntry validation. -/
def entSeed : Entry := ⟨0, "vol1", "seed.mp4", "seed", "c", 1⟩

/-- The entry the addition loop inserts for b.mp4 from counter 3. -/
def entInserted : Entry := ⟨3, "vol1", "b.mp4", "b.mp4", "Uncategorized", 5⟩

/-- A registry whose byUUID holds the uuid.Nil key. -/
def backdoorReg : Registry := emptyRegistry.add (some entSeed)

/-- A walk seeing the seeded file, a zero-size file and a fresh valid
file. -/
def metaMixed : List (String × FileMeta) :=
  [(("seed.mp4"), ⟨"seed.mp4", "seed", "c", 1⟩),
    (("zero.mp4"), ⟨"zero.mp4", "zero.mp4", "Uncategorized", 0⟩),
    (("b.mp4"), ⟨"b.mp4", "b.mp4", "Uncategorized", 5⟩)]

/-- The registry after scanning backdoorReg against metaMixed: the
zero-size file was skipped by the NewEntry error, the valid file was
inserted. -/
def backdoorAfter : Registry :=
  ⟨[(3, entInserted), (0, entSeed)], [(("b.mp4"), 3), (("seed.mp4"), 0)]⟩

/-- A registry already holding the single file that the witness walk
reports. -/
def regScanned : Registry := emptyRegistry.add (some ⟨1, "vol1", "a.mp4", "a.mp4", "Uncategorized", 5⟩)

def metaScanned : List (String × FileMeta) :=
  [(("a.mp4"), ⟨"a.mp4", "a.mp4", "Uncategorized", 5⟩)]

/-- A filesystem oracle for the openFile witness: one escaping path,
one missing path, everything else opens. -/
def resolveDemo : String → String → OpenOutcome := fun _ rel =>
  if rel = "../../etc/passwd" then .escapes
  else if rel = "missing.mp4" then .notFound
  else .opened 3

/-! Helper lemmas about the association-list maps. -/

theorem mapLookup_erase {κ α : Type} [DecidableEq κ] (m : List (κ × α)) (k k2 : κ) :
    mapLookup (mapErase m k) k2 = if k2 = k then none else mapLookup m k2 := by
  induction m with
  | nil => simp [mapErase, mapLookup]
  | cons a m ih =>
    obtain ⟨k1, v1⟩ := a
    by_cases h1 : k1 = k
    · subst h1
      by_cases h2 : k2 = k1
      · subst h2
        simp [mapErase, mapLookup, ih]
      · simp [mapErase, mapLookup, h2, ih]
    · by_cases h2 : k2 = k1
      · subst h2
        simp [mapErase, mapLookup, h1, Ne.symm h1]
      · simp [mapErase, mapLookup, h1, h2, ih]

theorem mapLookup_insert {κ α : Type} [DecidableEq κ] (m : List (κ × α)) (k k2 : κ)
    (v : α) :
    mapLookup (mapInsert m k v) k2 = if k2 = k then some v else mapLookup m k2 := by
  by_cases h2 : k2 = k <;> simp [mapInsert, mapLookup, h2, mapLookup_erase]

theorem mem_mapErase {κ α : Type} [DecidableEq κ] (m : List (κ × α)) (k : κ)
    (p : κ × α) (h : p ∈ mapErase m k) : p ∈ m := by
  induction m with
  | nil => simp [mapErase] at h
  | cons a m ih =>
    obtain ⟨k1, v1⟩ := a
    by_cases h1 : k1 = k
    · simp only [mapErase, h1, if_true] at h
      exact List.mem_cons_of_mem _ (ih h)
    · simp only [mapErase, h1, if_false] at h
      rcases List.mem_cons.mp h with h | h
      · exact h ▸ List.mem_cons_self _ _
      · exact List.mem_cons_of_mem _ (ih h)

theorem mem_mapInsert {κ α : Type} [DecidableEq κ] (m : List (κ × α)) (k : κ) (v : α)
    (p : κ × α) (h : p ∈ mapInsert m k v) : p = (k, v) ∨ p ∈ m := by
  rcases List.mem_cons.mp h with h | h
  · exact Or.inl h
  · exact Or.inr (mem_mapErase m k p h)

/-- NewEntry fails exactly on the inputs entryInvalid describes, for
every supplied identifier. -/
theorem newEntry_eq_none_iff (id : Nat) (volID path name category : String)
    (size : Int) :
    NewEntry id volID path name category size = none ↔
      entryInvalid volID path name size := by
  unfold NewEntry entryInvalid
  by_cases h : volID = "" ∨ path = "" ∨ name = "" ∨ size = 0 <;> simp [h]

/-- C3: the removal phase of Scan does apply the volume-restricted set
difference — an entry of the scanned volume whose path disappeared is
removed from both indexes, an entry of another volume is kept — but
the claim also says every admitted walked path absent from the catalog
is inserted; instead, on the very first such path (absent from byPath,
with uuid.Nil absent from byUUID) the addition loop of registry.go
reads byUUID at the zero-valued existingUUID and dereferences the
missing entry, so the scan crashes (modelled as none) and inserts
nothing. -/
theorem scan_panics_on_new_path :
    Registry.scan (emptyRegistry.add (some entGone)) ("vol1") [] 5 =
        some (emptyRegistry, 5) ∧
    Registry.scan (emptyRegistry.add (some entOther)) ("vol1") [] 5 =
        some (emptyRegistry.add (some entOther), 5) ∧
    mapLookup emptyRegistry.byPath ("a.mp4") = none ∧
    mapLookup emptyRegistry.byUUID nilUUID = none ∧
    Registry.scan emptyRegistry ("vol1")
      [(("a.mp4"), ⟨"a.mp4", "a.mp4", "Uncategorized", 5⟩)] 1 = none :=
  ⟨rfl, rfl, rfl, rfl, rfl⟩

/-- C10: NewEntry does reject a zero-size file, an empty path and an
empty name, and in the one state where the addition loop survives its
nil-entry dereference (uuid.Nil registered in byUUID with the scanned
volume) Scan does skip the invalid file via the NewEntry error and
continues to insert the valid one; but on a fresh catalog the claim
fails: the new path hits the nil-entry dereference before validation,
so the scan crashes (modelled none) instead of skipping. -/
theorem scan_cannot_skip_invalid_file :
    NewEntry 1 ("vol1") ("zero.mp4") ("zero.mp4") ("Uncategorized") 0 = none ∧
    NewEntry 1 ("vol1") ("") ("x.mp4") ("Uncategorized") 5 = none ∧
    NewEntry 1 ("vol1") ("x.mp4") ("") ("Uncategorized") 5 = none ∧
    Registry.scan backdoorReg ("vol1") metaMixed 3 = some (backdoorAfter, 4) ∧
    mapLookup backdoorAfter.byPath ("zero.mp4") = none ∧
    mapLookup backdoorAfter.byPath ("b.mp4") = some 3 ∧
    Registry.scan emptyRegistry ("vol1")
      [(("zero.mp4"), ⟨"zero.mp4", "zero.mp4", "Uncategorized", 0⟩)] 1 = none :=
  ⟨rfl, rfl, rfl, rfl, rfl, rfl, rfl⟩

/-- C7: an Acquire that resolves while the cancellation signal has
fired and no slot was taken returns the cancellation error with the
slot count unchanged, and returns ok exactly when it took a slot,
which requires free capacity. -/
theorem tryAcquire_classified (cap count : Nat) (cf pc : Bool)
    (res : AcquireResult) (count2 : Nat)
    (h : tryAcquire cap count cf pc = some (res, count2)) :
    (res = .cancelledErr → count2 = count ∧ cf = true) ∧
    (res = .ok ↔ count2 = count + 1) ∧
    (res = .ok → count < cap) := by
  unfold tryAcquire at h
  split at h
  · rename_i hc
    injection h with h1
    injection h1 with h2 h3
    subst h2
    subst h3
    refine ⟨fun _ => ⟨rfl, hc.1⟩, ?_, fun hk => by cases hk⟩
    constructor
    · intro hk
      cases hk
    · intro hk
      exact absurd hk (by omega)
  · split at h
    · rename_i hlt
      injection h with h1
      injection h1 with h2 h3
      subst h2
      subst h3
      refine And.intro (fun hk => by cases hk) (And.intro ?_ (fun _ => hlt))
      exact Iff.intro (fun _ => rfl) (fun _ => rfl)
    · cases h

/-- C7 witness: a cancelled acquire against a full limiter of capacity
one leaves the count at one. -/
theorem tryAcquire_classified_witness :
    ((AcquireResult.cancelledErr = .cancelledErr → 1 = 1 ∧ true = true) ∧
      (AcquireResult.cancelledErr = .ok ↔ 1 = 1 + 1) ∧
      (AcquireResult.cancelledErr = .ok → 1 < 1)) :=
  tryAcquire_classified 1 1 true false .cancelledErr 1 (by rfl)

/-- Limiter run invariant: the occupancy never exceeds the capacity and
always equals successful acquires minus releases. -/
theorem runLimiter_invariant (cap : Nat) (evs : List LimEvent) :
    ∀ start rs n, start ≤ cap → runLimiter cap evs start = some (rs, n) →
      n ≤ cap ∧ countOk rs + start = n + countRelease evs := by
  induction evs with
  | nil =>
    intro start rs n hle h
    simp only [runLimiter] at h
    injection h with h1
    injection h1 with h2 h3
    subst h2
    subst h3
    simpa [countOk, countRelease] using hle
  | cons ev evs ih =>
    intro start rs n hle h
    cases ev with
    | acquire cf pc =>
      rw [runLimiter] at h
      split at h
      · cases h
      · rename_i res n2 hacq
        split at h
        · cases h
        · rename_i rs2 m2 hrun
          injection h with h1
          injection h1 with h2 h3
          subst h2
          subst h3
          unfold tryAcquire at hacq
          split at hacq
          · injection hacq with ha
            injection ha with ha1 ha2
            subst ha1
            subst ha2
            have hrec := ih start rs2 _ hle hrun
            constructor
            · exact hrec.1
            · simp only [countOk, countRelease]
              omega
          · split at hacq
            · rename_i hlt
              injection hacq with ha
              injection ha with ha1 ha2
              subst ha1
              subst ha2
              have hrec := ih (start + 1) rs2 _ (by omega) hrun
              constructor
              · exact hrec.1
              · simp only [countOk, countRelease]
                omega
            · cases hacq
    | release =>
      rw [runLimiter] at h
      split at h
      · rename_i hpos
        have hrec := ih (start - 1) rs n (by omega) h
        constructor
        · exact hrec.1
        · simp only [countRelease]
          omega
      · cases h

/-- C6: in every reachable limiter state the number of successful
acquires minus releases equals the occupancy and never exceeds the
capacity, and while the limiter is full no acquire can return ok. -/
theorem limiter_admission_bound (cap : Nat) (evs : List LimEvent)
    (rs : List AcquireResult) (n : Nat)
    (h : runLimiter cap evs 0 = some (rs, n)) :
    n ≤ cap ∧ countOk rs = n + countRelease evs ∧
    (∀ cf pc res n2, n = cap → tryAcquire cap n cf pc = some (res, n2) →
      res ≠ .ok) := by
  obtain ⟨h1, h2⟩ := runLimiter_invariant cap evs 0 rs n (Nat.zero_le cap) h
  refine ⟨h1, by omega, ?_⟩
  intro cf pc res n2 hfull hacq
  unfold tryAcquire at hacq
  split at hacq
  · injection hacq with ha
    injection ha with ha1 _
    subst ha1
    intro hk; cases hk
  · split at hacq
    · omega
    · cases hacq

/-- C6 witness: with capacity one, an acquire succeeds, a second
acquire is cancelled, a release frees the slot, a third acquire
succeeds again; two successes, one release, occupancy one. -/
theorem limiter_admission_bound_witness :
    1 ≤ 1 ∧
    countOk [.ok, .cancelledErr, .ok] =
      1 + countRelease [.acquire false false, .acquire true false, .release,
        .acquire false false] ∧
    (∀ cf pc res n2, 1 = 1 → tryAcquire 1 1 cf pc = some (res, n2) →
      res ≠ .ok) :=
  limiter_admission_bound 1
    [.acquire false false, .acquire true false, .release, .acquire false false]
    [.ok, .cancelledErr, .ok] 1 (by rfl)

/-- C2: a path whose resolution escapes the root fails with an error
that matches ErrPathOutsideRoot and the original fs.ErrInvalid (wrapped
with context yet matchable) but matches neither fs.ErrNotExist nor
fs.ErrPermission; not-found, permission and other errors pass through
exactly as os.OpenInRoot produced them and do not match
ErrPathOutsideRoot. -/
theorem openFile_confines_to_root (resolve : String → String → OpenOutcome)
    (root rel : String) :
    (resolve root rel = .escapes →
      openFile resolve root rel = Except.error pathEscapeError) ∧
    errorIs pathEscapeError .errPathOutsideRoot = true ∧
    errorIs pathEscapeError .fsErrInvalid = true ∧
    errorIs pathEscapeError .fsErrNotExist = false ∧
    errorIs pathEscapeError .fsErrPermission = false ∧
    (resolve root rel = .notFound →
      openFile resolve root rel = Except.error notFoundError ∧
      osOpenInRoot resolve root rel = Except.error notFoundError) ∧
    errorIs notFoundError .errPathOutsideRoot = false ∧
    (resolve root rel = .permission →
      openFile resolve root rel = Except.error permissionError ∧
      osOpenInRoot resolve root rel = Except.error permissionError) ∧
    errorIs permissionError .errPathOutsideRoot = false ∧
    (∀ s, resolve root rel = .otherErr s →
      openFile resolve root rel = Except.error (.other s) ∧
      osOpenInRoot resolve root rel = Except.error (.other s)) := by
  refine ⟨?_, rfl, rfl, rfl, rfl, ?_, rfl, ?_, rfl, ?_⟩
  · intro h
    simp [openFile, osOpenInRoot, h, errorIs, pathEscapeError]
  · intro h
    simp [openFile, osOpenInRoot, h, errorIs, notFoundError]
  · intro h
    simp [openFile, osOpenInRoot, h, errorIs, permissionError]
  · intro s h
    simp [openFile, osOpenInRoot, h, errorIs]

/-- C2 witness: against a concrete oracle, opening an escaping relative
path produces the distinguished wrapped error, and a missing file
produces the untouched not-found error. -/
theorem openFile_confines_to_root_witness :
    openFile resolveDemo ("/media") ("../../etc/passwd") =
        Except.error pathEscapeError ∧
    openFile resolveDemo ("/media") ("missing.mp4") = Except.error notFoundError ∧
    errorIs pathEscapeError .errPathOutsideRoot = true ∧
    errorIs notFoundError .errPathOutsideRoot = false :=
  ⟨(openFile_confines_to_root resolveDemo ("/media") ("../../etc/passwd")).1 (by rfl),
    ((openFile_confines_to_root resolveDemo ("/media") ("missing.mp4")).2.2.2.2.2.1
      (by rfl)).1,
    (openFile_confines_to_root resolveDemo ("/media") ("x")).2.1,
    (openFile_confines_to_root resolveDemo ("/media") ("x")).2.2.2.2.2.2.1⟩

/-- C9: a zero-offset relative seek answers with the descriptor
position minus the buffered byte count, hands back the state
unchanged, and therefore a read after the query returns exactly what a
read without the query would have returned. -/
theorem position_query_is_pure (b : BufFile) (n : Nat) :
    bufferedSeek b 0 .current =
        Except.ok ((b.pos : Int) - (b.buf.length : Int), b) ∧
    afterPositionQuery b = b ∧
    bufferedRead (afterPositionQuery b) n = bufferedRead b n := by
  have h1 : bufferedSeek b 0 .current =
      Except.ok ((b.pos : Int) - (b.buf.length : Int), b) := by
    have hpos : ¬((b.pos : Int) < 0) := by omega
    simp [bufferedSeek, fileSeek, hpos]
  have h2 : afterPositionQuery b = b := by
    rw [afterPositionQuery, h1]
  exact ⟨h1, h2, by rw [h2]⟩

/-! Lemmas for the byte-wise string order behind the List comparator. -/

theorem charListLE_cons_le {a b : Char} {as bs : List Char}
    (h : charListLE (a :: as) (b :: bs) = true) : a.toNat ≤ b.toNat := by
  by_cases hab : a.toNat < b.toNat
  · omega
  · by_cases hba : b.toNat < a.toNat
    · simp [charListLE, hab, hba] at h
    · omega

theorem charListLE_cons_eq {a b : Char} {as bs : List Char}
    (h : charListLE (a :: as) (b :: bs) = true) (he : a.toNat = b.toNat) :
    charListLE as bs = true := by
  simpa [charListLE, show ¬a.toNat < b.toNat from by omega,
    show ¬b.toNat < a.toNat from by omega] using h

theorem charListLE_total (as : List Char) :
    ∀ bs, charListLE as bs = true ∨ charListLE bs as = true := by
  induction as with
  | nil => intro bs; exact Or.inl rfl
  | cons a as ih =>
    intro bs
    cases bs with
    | nil => exact Or.inr rfl
    | cons b bs =>
      by_cases hab : a.toNat < b.toNat
      · left
        simp [charListLE, hab]
      · by_cases hba : b.toNat < a.toNat
        · right
          simp [charListLE, hba]
        · rcases ih bs with h | h
          · left
            simp [charListLE, hab, hba, h]
          · right
            simp [charListLE, hab, hba, h]

theorem charListLE_trans (as : List Char) :
    ∀ bs cs, charListLE as bs = true → charListLE bs cs = true →
      charListLE as cs = true := by
  induction as with
  | nil => intro bs cs h1 h2; rfl
  | cons a as ih =>
    intro bs cs h1 h2
    cases bs with
    | nil => simp [charListLE] at h1
    | cons b bs =>
      cases cs with
      | nil => simp [charListLE] at h2
      | cons c cs =>
        have le1 := charListLE_cons_le h1
        have le2 := charListLE_cons_le h2
        by_cases hac : a.toNat < c.toNat
        · simp [charListLE, hac]
        · have hab2 : a.toNat = b.toNat := by omega
          have hbc2 : b.toNat = c.toNat := by omega
          have h1b := charListLE_cons_eq h1 hab2
          have h2b := charListLE_cons_eq h2 hbc2
          simp [charListLE, hac, show ¬c.toNat < a.toNat from by omega]
          exact ih bs cs h1b h2b

theorem charListLE_antisymm (as : List Char) :
    ∀ bs, charListLE as bs = true → charListLE bs as = true → as = bs := by
  induction as with
  | nil =>
    intro bs h1 h2
    cases bs with
    | nil => rfl
    | cons b bs => simp [charListLE] at h2
  | cons a as ih =>
    intro bs h1 h2
    cases bs with
    | nil => simp [charListLE] at h1
    | cons b bs =>
      have le1 := charListLE_cons_le h1
      have le2 := charListLE_cons_le h2
      have heq : a.toNat = b.toNat := by omega
      have hc : a = b := by
        rw [← Char.ofNat_toNat a, ← Char.ofNat_toNat b, heq]
      have h1b := charListLE_cons_eq h1 heq
      have h2b := charListLE_cons_eq h2 heq.symm
      rw [hc, ih bs h1b h2b]

/-- C8 counterexample: two entries with the same name are returned in
whichever order the byUUID map iteration produced them — the
name-only comparator never consults the id — so two List calls over the
identical catalog can give different sequences. -/
theorem list_ordering_not_deterministic_on_ties :
    [entN1, entN2].Perm [entN2, entN1] ∧
    listSnapshot [entN1, entN2] ≠ listSnapshot [entN2, entN1] := by
  constructor
  · exact List.Perm.swap entN2 entN1 []
  · decide

/-- C8 amended: List returns a snapshot that is a name-sorted
permutation of the entries, and the sequence is independent of the map
iteration order whenever all entry names are distinct; ties between
equal names are not broken by id. -/
theorem listSnapshot_sorted_and_deterministic (l1 l2 : List Entry)
    (hperm : l1.Perm l2) (hnames : (l1.map Entry.name).Nodup) :
    (listSnapshot l1).Perm l1 ∧ List.Sorted nameLE (listSnapshot l1) ∧
    listSnapshot l1 = listSnapshot l2 := by
  haveI hT : IsTotal Entry nameLE :=
    ⟨fun a b => charListLE_total a.name.data b.name.data⟩
  haveI hTr : IsTrans Entry nameLE :=
    ⟨fun a b c h1 h2 => charListLE_trans a.name.data b.name.data c.name.data h1 h2⟩
  have hp1 : (listSnapshot l1).Perm l1 := List.perm_insertionSort nameLE l1
  have hp2 : (listSnapshot l2).Perm l2 := List.perm_insertionSort nameLE l2
  have hs1 : List.Sorted nameLE (listSnapshot l1) := List.sorted_insertionSort nameLE l1
  have hs2 : List.Sorted nameLE (listSnapshot l2) := List.sorted_insertionSort nameLE l2
  refine ⟨hp1, hs1, ?_⟩
  have hnames2 : (l2.map Entry.name).Nodup := ((hperm.map Entry.name).nodup_iff).mp hnames
  have hn1 : ((listSnapshot l1).map Entry.name).Nodup :=
    ((hp1.map Entry.name).nodup_iff).mpr hnames
  have hn2 : ((listSnapshot l2).map Entry.name).Nodup :=
    ((hp2.map Entry.name).nodup_iff).mpr hnames2
  have hperm12 : (listSnapshot l1).Perm (listSnapshot l2) :=
    (hp1.trans hperm).trans hp2.symm
  haveI : IsAntisymm Entry (fun a b => nameLE a b ∧ a.name ≠ b.name) :=
    ⟨fun a b h1 h2 =>
      absurd (congrArg String.mk (charListLE_antisymm a.name.data b.name.data h1.1 h2.1))
        (by
          intro hk
          exact h1.2 (by
            cases hname1 : a.name
            cases hname2 : b.name
            exact hname1 ▸ hname2 ▸ hk))⟩
  have hstrict : ∀ l : List Entry, List.Sorted nameLE l →
      ((l.map Entry.name).Nodup) →
      List.Pairwise (fun a b => nameLE a b ∧ a.name ≠ b.name) l := by
    intro l hs hn
    have hne : List.Pairwise (fun a b : Entry => a.name ≠ b.name) l :=
      (List.pairwise_map).mp hn
    exact hs.and hne
  exact List.eq_of_perm_of_sorted hperm12 (hstrict _ hs1 hn1) (hstrict _ hs2 hn2)

/-- C8 witness: with the two distinct names alpha and beta, both
iteration orders sort to the same name-ordered snapshot. -/
theorem listSnapshot_sorted_and_deterministic_witness :
    (listSnapshot [entD2, entD1]).Perm [entD2, entD1] ∧
    List.Sorted nameLE (listSnapshot [entD2, entD1]) ∧
    listSnapshot [entD2, entD1] = listSnapshot [entD1, entD2] :=
  listSnapshot_sorted_and_deterministic [entD2, entD1] [entD1, entD2]
    (List.Perm.swap entD1 entD2 []) (by decide)

/-- C4 counterexample: adding a second entry under the path of an
existing entry with a different identifier overwrites byPath but leaves
the displaced identifier in byUUID, so the indexes no longer agree:
identifier 1 still holds an entry with path p, yet p maps to 2. -/
theorem add_overwrite_breaks_agreement :
    mapLookup clashReg.byUUID 1 = some entA ∧
    mapLookup clashReg.byPath ("p") = some 2 ∧
    ¬ Registry.Agree clashReg := by
  refine ⟨rfl, rfl, ?_⟩
  intro hA
  obtain ⟨h1, _⟩ := hA
  obtain ⟨hp, _⟩ := h1 1 entA (by rfl)
  have h2 : mapLookup clashReg.byPath entA.path = some 2 := by rfl
  rw [hp] at h2
  simp at h2

/-- C4 amended: after every Remove the two indexes still agree, and
after an Add they agree provided the added entry's path is not already
registered under a different identifier and its identifier not under a
different path; an Add overwriting a foreign path breaks the
agreement, as the counterexample shows. -/
theorem add_remove_preserve_agreement (r : Registry) (e : Entry) (q : String)
    (hA : r.Agree)
    (hfreshPath : ∀ u, mapLookup r.byPath e.path = some u → u = e.uuid)
    (hfreshId : ∀ e2, mapLookup r.byUUID e.uuid = some e2 → e2.path = e.path) :
    (r.add (some e)).Agree ∧ (r.remove q).Agree := by
  obtain ⟨hA1, hA2⟩ := hA
  constructor
  · constructor
    · intro u ent hu0
      have hu : mapLookup (mapInsert r.byUUID e.uuid e) u = some ent := hu0
      rw [mapLookup_insert] at hu
      by_cases hue : u = e.uuid
      · rw [if_pos hue] at hu
        injection hu with hu
        subst hu
        constructor
        · show mapLookup (mapInsert r.byPath e.path e.uuid) e.path = some u
          rw [mapLookup_insert, if_pos rfl, hue]
        · intro p hp0
          have hp : mapLookup (mapInsert r.byPath e.path e.uuid) p = some u := hp0
          rw [mapLookup_insert] at hp
          by_cases hpe : p = e.path
          · exact hpe
          · rw [if_neg hpe] at hp
            rw [hue] at hp
            obtain ⟨e0, he0⟩ := hA2 p e.uuid hp
            obtain ⟨_, huniq0⟩ := hA1 e.uuid e0 he0
            have hpp : p = e0.path := huniq0 p (hue ▸ hp)
            have : e0.path = e.path := hfreshId e0 he0
            exact absurd (hpp.trans this) hpe
      · rw [if_neg hue] at hu
        obtain ⟨hpath, huniq⟩ := hA1 u ent hu
        constructor
        · show mapLookup (mapInsert r.byPath e.path e.uuid) ent.path = some u
          rw [mapLookup_insert]
          by_cases hpp : ent.path = e.path
          · rw [hpp] at hpath
            exact absurd (hfreshPath u hpath) hue
          · rw [if_neg hpp]
            exact hpath
        · intro p hp0
          have hp : mapLookup (mapInsert r.byPath e.path e.uuid) p = some u := hp0
          rw [mapLookup_insert] at hp
          by_cases hpe : p = e.path
          · rw [if_pos hpe] at hp
            injection hp with hp
            exact absurd hp.symm hue
          · rw [if_neg hpe] at hp
            exact huniq p hp
    · intro p u hp0
      have hp : mapLookup (mapInsert r.byPath e.path e.uuid) p = some u := hp0
      rw [mapLookup_insert] at hp
      by_cases hpe : p = e.path
      · rw [if_pos hpe] at hp
        injection hp with hp
        refine ⟨e, ?_⟩
        show mapLookup (mapInsert r.byUUID e.uuid e) u = some e
        rw [mapLookup_insert, if_pos hp.symm]
      · rw [if_neg hpe] at hp
        obtain ⟨ent, hent⟩ := hA2 p u hp
        by_cases hue : u = e.uuid
        · refine ⟨e, ?_⟩
          show mapLookup (mapInsert r.byUUID e.uuid e) u = some e
          rw [mapLookup_insert, if_pos hue]
        · refine ⟨ent, ?_⟩
          show mapLookup (mapInsert r.byUUID e.uuid e) u = some ent
          rw [mapLookup_insert, if_neg hue]
          exact hent
  · rw [Registry.remove]
    by_cases hq : q = ""
    · rw [if_pos hq]
      exact ⟨hA1, hA2⟩
    · rw [if_neg hq]
      cases hlook : mapLookup r.byPath q with
      | none => exact ⟨hA1, hA2⟩
      | some u0 =>
        constructor
        · intro u ent hu0
          have hu : mapLookup (mapErase r.byUUID u0) u = some ent := hu0
          rw [mapLookup_erase] at hu
          by_cases huu : u = u0
          · rw [if_pos huu] at hu
            cases hu
          · rw [if_neg huu] at hu
            obtain ⟨hpath, huniq⟩ := hA1 u ent hu
            constructor
            · show mapLookup (mapErase r.byPath q) ent.path = some u
              rw [mapLookup_erase]
              by_cases hpq : ent.path = q
              · rw [hpq] at hpath
                rw [hlook] at hpath
                injection hpath with hpath
                exact absurd hpath.symm huu
              · rw [if_neg hpq]
                exact hpath
            · intro p hp0
              have hp : mapLookup (mapErase r.byPath q) p = some u := hp0
              rw [mapLookup_erase] at hp
              by_cases hpq : p = q
              · rw [if_pos hpq] at hp
                cases hp
              · rw [if_neg hpq] at hp
                exact huniq p hp
        · intro p u hp0
          have hp : mapLookup (mapErase r.byPath q) p = some u := hp0
          rw [mapLookup_erase] at hp
          by_cases hpq : p = q
          · rw [if_pos hpq] at hp
            cases hp
          · rw [if_neg hpq] at hp
            by_cases huu : u = u0
            · obtain ⟨e0, he0⟩ := hA2 q u0 hlook
              obtain ⟨_, huniq0⟩ := hA1 u0 e0 he0
              have h1 : q = e0.path := huniq0 q hlook
              have h2 : p = e0.path := huniq0 p (huu ▸ hp)
              exact absurd (h2.trans h1.symm) hpq
            · obtain ⟨ent, hent⟩ := hA2 p u hp
              refine ⟨ent, ?_⟩
              show mapLookup (mapErase r.byUUID u0) u = some ent
              rw [mapLookup_erase, if_neg huu]
              exact hent

/-- C4 witness: adding a fresh entry to the empty registry and removing
an arbitrary path both leave the indexes in agreement. -/
theorem add_remove_preserve_agreement_witness :
    (emptyRegistry.add (some entA)).Agree ∧ (emptyRegistry.remove ("x")).Agree :=
  add_remove_preserve_agreement emptyRegistry entA ("x")
    ⟨fun _ _ h => Option.noConfusion h, fun _ _ h => Option.noConfusion h⟩
    (fun _ h => Option.noConfusion h) (fun _ h => Option.noConfusion h)

/-! Lemmas for Scan idempotence: stepping the addition loop, and the
facts it preserves. -/

theorem scanAddLoop_cons_present {v p0 : String} {m0 : FileMeta}
    {rest : List (String × FileMeta)} {r : Registry} {c u0 : Nat}
    (hl : mapLookup r.byPath p0 = some u0) :
    Registry.scanAddLoop v ((p0, m0) :: rest) r c = Registry.scanAddLoop v rest r c := by
  rw [Registry.scanAddLoop]
  simp only [hl]

theorem scanAddLoop_cons_panic {v p0 : String} {m0 : FileMeta}
    {rest : List (String × FileMeta)} {r : Registry} {c : Nat}
    (hl : mapLookup r.byPath p0 = none) (hn : mapLookup r.byUUID nilUUID = none) :
    Registry.scanAddLoop v ((p0, m0) :: rest) r c = none := by
  rw [Registry.scanAddLoop]
  simp only [hl, hn]

theorem scanAddLoop_cons_otherVolume {v p0 : String} {m0 : FileMeta}
    {rest : List (String × FileMeta)} {r : Registry} {c : Nat} {e0 : Entry}
    (hl : mapLookup r.byPath p0 = none) (hn : mapLookup r.byUUID nilUUID = some e0)
    (hv : e0.volumeID ≠ v) :
    Registry.scanAddLoop v ((p0, m0) :: rest) r c = Registry.scanAddLoop v rest r c := by
  rw [Registry.scanAddLoop]
  simp only [hl, hn]
  rw [if_pos hv]

theorem scanAddLoop_cons_invalid {v p0 : String} {m0 : FileMeta}
    {rest : List (String × FileMeta)} {r : Registry} {c : Nat} {e0 : Entry}
    (hl : mapLookup r.byPath p0 = none) (hn : mapLookup r.byUUID nilUUID = some e0)
    (hv : ¬ e0.volumeID ≠ v)
    (hne : NewEntry c v m0.path m0.name m0.category m0.size = none) :
    Registry.scanAddLoop v ((p0, m0) :: rest) r c = Registry.scanAddLoop v rest r c := by
  rw [Registry.scanAddLoop]
  simp only [hl, hn]
  rw [if_neg hv]
  simp only [hne]

theorem scanAddLoop_cons_insert {v p0 : String} {m0 : FileMeta}
    {rest : List (String × FileMeta)} {r : Registry} {c : Nat} {e0 e : Entry}
    (hl : mapLookup r.byPath p0 = none) (hn : mapLookup r.byUUID nilUUID = some e0)
    (hv : ¬ e0.volumeID ≠ v)
    (he : NewEntry c v m0.path m0.name m0.category m0.size = some e) :
    Registry.scanAddLoop v ((p0, m0) :: rest) r c =
      Registry.scanAddLoop v rest
        ⟨mapInsert r.byUUID e.uuid e, mapInsert r.byPath e.path e.uuid⟩ (c + 1) := by
  rw [Registry.scanAddLoop]
  simp only [hl, hn]
  rw [if_neg hv]
  simp only [he]

theorem newEntry_some_fields {id : Nat} {volID path name category : String}
    {size : Int} {e : Entry}
    (h : NewEntry id volID path name category size = some e) :
    e.uuid = id ∧ e.volumeID = volID ∧ e.path = path ∧ e.name = name ∧
      e.size = size := by
  unfold NewEntry at h
  split at h
  · cases h
  · injection h with h1
    subst h1
    exact ⟨rfl, rfl, rfl, rfl, rfl⟩

theorem addLoop_byPath_mono (v : String) :
    ∀ (meta : List (String × FileMeta)) (r : Registry) (c r1c : Nat) (r1 : Registry),
      (∀ x ∈ meta, (Prod.snd x).path = x.1) →
      Registry.scanAddLoop v meta r c = some (r1, r1c) →
      ∀ p u, mapLookup r.byPath p = some u → mapLookup r1.byPath p = some u := by
  intro meta
  induction meta with
  | nil =>
    intro r c r1c r1 hkey h p u hp
    rw [Registry.scanAddLoop] at h
    injection h with h1
    injection h1 with h2 h3
    subst h2
    exact hp
  | cons x rest ih =>
    obtain ⟨p0, m0⟩ := x
    intro r c r1c r1 hkey h p u hp
    have hkeyr : ∀ x ∈ rest, (Prod.snd x).path = x.1 :=
      fun x hx => hkey x (List.mem_cons_of_mem _ hx)
    cases hl : mapLookup r.byPath p0 with
    | some u0 =>
      rw [scanAddLoop_cons_present hl] at h
      exact ih r c r1c r1 hkeyr h p u hp
    | none =>
      cases hn : mapLookup r.byUUID nilUUID with
      | none =>
        rw [scanAddLoop_cons_panic hl hn] at h
        cases h
      | some e0 =>
        by_cases hv : e0.volumeID ≠ v
        · rw [scanAddLoop_cons_otherVolume hl hn hv] at h
          exact ih r c r1c r1 hkeyr h p u hp
        · cases he : NewEntry c v m0.path m0.name m0.category m0.size with
          | none =>
            rw [scanAddLoop_cons_invalid hl hn hv he] at h
            exact ih r c r1c r1 hkeyr h p u hp
          | some e =>
            rw [scanAddLoop_cons_insert hl hn hv he] at h
            refine ih _ _ r1c r1 hkeyr h p u ?_
            show mapLookup (mapInsert r.byPath e.path e.uuid) p = some u
            rw [mapLookup_insert]
            have hep : e.path = p0 := by
              rw [(newEntry_some_fields he).2.2.1]
              exact hkey (p0, m0) (List.mem_cons_self _ _)
            by_cases hpe : p = e.path
            · rw [hpe, hep] at hp
              rw [hp] at hl
              cases hl
            · rw [if_neg hpe]
              exact hp

theorem addLoop_nil_some (v : String) :
    ∀ (meta : List (String × FileMeta)) (r : Registry) (c r1c : Nat) (r1 : Registry),
      Registry.scanAddLoop v meta r c = some (r1, r1c) →
      (∃ e0, mapLookup r.byUUID nilUUID = some e0) →
      ∃ e1, mapLookup r1.byUUID nilUUID = some e1 := by
  intro meta
  induction meta with
  | nil =>
    intro r c r1c r1 h hsome
    rw [Registry.scanAddLoop] at h
    injection h with h1
    injection h1 with h2 h3
    subst h2
    exact hsome
  | cons x rest ih =>
    obtain ⟨p0, m0⟩ := x
    intro r c r1c r1 h hsome
    cases hl : mapLookup r.byPath p0 with
    | some u0 =>
      rw [scanAddLoop_cons_present hl] at h
      exact ih r c r1c r1 h hsome
    | none =>
      cases hn : mapLookup r.byUUID nilUUID with
      | none =>
        rw [scanAddLoop_cons_panic hl hn] at h
        cases h
      | some e0 =>
        by_cases hv : e0.volumeID ≠ v
        · rw [scanAddLoop_cons_otherVolume hl hn hv] at h
          exact ih r c r1c r1 h hsome
        · cases he : NewEntry c v m0.path m0.name m0.category m0.size with
          | none =>
            rw [scanAddLoop_cons_invalid hl hn hv he] at h
            exact ih r c r1c r1 h hsome
          | some e =>
            rw [scanAddLoop_cons_insert hl hn hv he] at h
            refine ih _ _ r1c r1 h ?_
            show ∃ e1, mapLookup (mapInsert r.byUUID e.uuid e) nilUUID = some e1
            rw [mapLookup_insert]
            by_cases hz : nilUUID = e.uuid
            · exact ⟨e, by rw [if_pos hz]⟩
            · rw [if_neg hz]
              exact ⟨e0, hn⟩

theorem addLoop_nil_stable (v : String) :
    ∀ (meta : List (String × FileMeta)) (r : Registry) (c r1c : Nat) (r1 : Registry)
      (e0 : Entry),
      Registry.scanAddLoop v meta r c = some (r1, r1c) →
      mapLookup r.byUUID nilUUID = some e0 → e0.volumeID ≠ v →
      mapLookup r1.byUUID nilUUID = some e0 := by
  intro meta
  induction meta with
  | nil =>
    intro r c r1c r1 e0 h hn hv
    rw [Registry.scanAddLoop] at h
    injection h with h1
    injection h1 with h2 h3
    subst h2
    exact hn
  | cons x rest ih =>
    obtain ⟨p0, m0⟩ := x
    intro r c r1c r1 e0 h hn hv
    cases hl : mapLookup r.byPath p0 with
    | some u0 =>
      rw [scanAddLoop_cons_present hl] at h
      exact ih r c r1c r1 e0 h hn hv
    | none =>
      rw [scanAddLoop_cons_otherVolume hl hn hv] at h
      exact ih r c r1c r1 e0 h hn hv

theorem addLoop_no_victims (v : String) (metaPaths : List String) :
    ∀ (meta : List (String × FileMeta)) (r : Registry) (c r1c : Nat) (r1 : Registry),
      (∀ x ∈ meta, (Prod.snd x).path = x.1) →
      (∀ x ∈ meta, x.1 ∈ metaPaths) →
      (∀ pr ∈ r.byUUID, isVictim v metaPaths pr.2 = false) →
      Registry.scanAddLoop v meta r c = some (r1, r1c) →
      ∀ pr ∈ r1.byUUID, isVictim v metaPaths pr.2 = false := by
  intro meta
  induction meta with
  | nil =>
    intro r c r1c r1 hkey hmem hall h
    rw [Registry.scanAddLoop] at h
    injection h with h1
    injection h1 with h2 h3
    subst h2
    exact hall
  | cons x rest ih =>
    obtain ⟨p0, m0⟩ := x
    intro r c r1c r1 hkey hmem hall h
    have hkeyr : ∀ x ∈ rest, (Prod.snd x).path = x.1 :=
      fun x hx => hkey x (List.mem_cons_of_mem _ hx)
    have hmemr : ∀ x ∈ rest, x.1 ∈ metaPaths :=
      fun x hx => hmem x (List.mem_cons_of_mem _ hx)
    cases hl : mapLookup r.byPath p0 with
    | some u0 =>
      rw [scanAddLoop_cons_present hl] at h
      exact ih r c r1c r1 hkeyr hmemr hall h
    | none =>
      cases hn : mapLookup r.byUUID nilUUID with
      | none =>
        rw [scanAddLoop_cons_panic hl hn] at h
        cases h
      | some e0 =>
        by_cases hv : e0.volumeID ≠ v
        · rw [scanAddLoop_cons_otherVolume hl hn hv] at h
          exact ih r c r1c r1 hkeyr hmemr hall h
        · cases he : NewEntry c v m0.path m0.name m0.category m0.size with
          | none =>
            rw [scanAddLoop_cons_invalid hl hn hv he] at h
            exact ih r c r1c r1 hkeyr hmemr hall h
          | some e =>
            rw [scanAddLoop_cons_insert hl hn hv he] at h
            refine ih _ _ r1c r1 hkeyr hmemr ?_ h
            intro pr hpr
            rcases mem_mapInsert r.byUUID e.uuid e pr hpr with hone | hold
            · have hep : e.path = p0 := by
                rw [(newEntry_some_fields he).2.2.1]
                exact hkey (p0, m0) (List.mem_cons_self _ _)
              have hpmem : e.path ∈ metaPaths := by
                rw [hep]
                exact hmem (p0, m0) (List.mem_cons_self _ _)
              rw [hone]
              simp [isVictim, hpmem]
            · exact hall pr hold

theorem addLoop_settled (v : String) :
    ∀ (meta : List (String × FileMeta)) (r : Registry) (c r1c : Nat) (r1 : Registry),
      (∀ x ∈ meta, (Prod.snd x).path = x.1) →
      Registry.scanAddLoop v meta r c = some (r1, r1c) →
      ∀ x ∈ meta, settled v r1 x := by
  intro meta
  induction meta with
  | nil =>
    intro r c r1c r1 hkey h x hx
    cases hx
  | cons y rest ih =>
    obtain ⟨p0, m0⟩ := y
    intro r c r1c r1 hkey h x hx
    have hkeyr : ∀ x ∈ rest, (Prod.snd x).path = x.1 :=
      fun x hx => hkey x (List.mem_cons_of_mem _ hx)
    cases hl : mapLookup r.byPath p0 with
    | some u0 =>
      rw [scanAddLoop_cons_present hl] at h
      rcases List.mem_cons.mp hx with hx0 | hxr
      · subst hx0
        exact Or.inl ⟨u0, addLoop_byPath_mono v rest r c r1c r1 hkeyr h p0 u0 hl⟩
      · exact ih r c r1c r1 hkeyr h x hxr
    | none =>
      cases hn : mapLookup r.byUUID nilUUID with
      | none =>
        rw [scanAddLoop_cons_panic hl hn] at h
        cases h
      | some e0 =>
        by_cases hv : e0.volumeID ≠ v
        · rw [scanAddLoop_cons_otherVolume hl hn hv] at h
          rcases List.mem_cons.mp hx with hx0 | hxr
          · subst hx0
            exact Or.inr ⟨e0, addLoop_nil_stable v rest r c r1c r1 e0 h hn hv, Or.inl hv⟩
          · exact ih r c r1c r1 hkeyr h x hxr
        · cases he : NewEntry c v m0.path m0.name m0.category m0.size with
          | none =>
            rw [scanAddLoop_cons_invalid hl hn hv he] at h
            rcases List.mem_cons.mp hx with hx0 | hxr
            · subst hx0
              obtain ⟨e1, he1⟩ := addLoop_nil_some v rest r c r1c r1 h ⟨e0, hn⟩
              exact Or.inr ⟨e1, he1, Or.inr ((newEntry_eq_none_iff c v
                m0.path m0.name m0.category m0.size).mp he)⟩
            · exact ih r c r1c r1 hkeyr h x hxr
          | some e =>
            rw [scanAddLoop_cons_insert hl hn hv he] at h
            rcases List.mem_cons.mp hx with hx0 | hxr
            · subst hx0
              refine Or.inl ⟨e.uuid, ?_⟩
              refine addLoop_byPath_mono v rest _ _ r1c r1 hkeyr h p0 e.uuid ?_
              show mapLookup (mapInsert r.byPath e.path e.uuid) p0 = some e.uuid
              have hep : e.path = p0 := by
                rw [(newEntry_some_fields he).2.2.1]
                exact hkey (p0, m0) (List.mem_cons_self _ _)
              rw [mapLookup_insert, if_pos hep.symm]
            · exact ih _ _ r1c r1 hkeyr h x hxr

theorem addLoop_of_settled (v : String) :
    ∀ (meta : List (String × FileMeta)) (r : Registry) (c : Nat),
      (∀ x ∈ meta, settled v r x) →
      Registry.scanAddLoop v meta r c = some (r, c) := by
  intro meta
  induction meta with
  | nil =>
    intro r c _
    rw [Registry.scanAddLoop]
  | cons y rest ih =>
    obtain ⟨p0, m0⟩ := y
    intro r c hset
    have hsetr : ∀ x ∈ rest, settled v r x :=
      fun x hx => hset x (List.mem_cons_of_mem _ hx)
    rcases hset (p0, m0) (List.mem_cons_self _ _) with ⟨u0, hu0⟩ | ⟨e0, he0, hd⟩
    · rw [scanAddLoop_cons_present hu0]
      exact ih r c hsetr
    · cases hl : mapLookup r.byPath p0 with
      | some u0 =>
        rw [scanAddLoop_cons_present hl]
        exact ih r c hsetr
      | none =>
        by_cases hv : e0.volumeID ≠ v
        · rw [scanAddLoop_cons_otherVolume hl he0 hv]
          exact ih r c hsetr
        · rcases hd with hd | hd
          · exact absurd hd hv
          · have hne : NewEntry c v m0.path m0.name m0.category m0.size = none :=
              (newEntry_eq_none_iff c v m0.path m0.name m0.category m0.size).mpr hd
            rw [scanAddLoop_cons_invalid hl he0 hv hne]
            exact ih r c hsetr

/-- C5: whenever a Scan completes (the addition loop does not hit the
nil-entry dereference), running the same Scan again over the unchanged
walk result succeeds and returns the catalog totally unchanged — same
entries, identifiers, paths, names, categories, sizes, and the same
identifier counter. -/
theorem scan_is_idempotent (r : Registry) (v : String)
    (meta : List (String × FileMeta)) (c : Nat) (r1 : Registry) (c1 : Nat)
    (hkey : ∀ x ∈ meta, (Prod.snd x).path = x.1)
    (h : Registry.scan r v meta c = some (r1, c1)) :
    Registry.scan r1 v meta c1 = some (r1, c1) := by
  unfold Registry.scan at h ⊢
  have hbase : ∀ pr ∈ (r.scanRemove v (meta.map Prod.fst)).byUUID,
      isVictim v (meta.map Prod.fst) pr.2 = false := by
    intro pr hpr
    have hm : pr ∈ r.byUUID.filter
        (fun p => !(isVictim v (meta.map Prod.fst) p.2)) := hpr
    have hb := (List.mem_filter.mp hm).2
    simpa using hb
  have hmem : ∀ x ∈ meta, x.1 ∈ meta.map Prod.fst :=
    fun x hx => List.mem_map_of_mem Prod.fst hx
  have hnov : ∀ pr ∈ r1.byUUID, isVictim v (meta.map Prod.fst) pr.2 = false :=
    addLoop_no_victims v (meta.map Prod.fst) meta _ c c1 r1 hkey hmem hbase h
  have hset : ∀ x ∈ meta, settled v r1 x :=
    addLoop_settled v meta _ c c1 r1 hkey h
  have hrem : r1.scanRemove v (meta.map Prod.fst) = r1 := by
    have h1 : r1.byUUID.filter (fun p => !(isVictim v (meta.map Prod.fst) p.2)) =
        r1.byUUID :=
      List.filter_eq_self.mpr (fun a ha => by simp [hnov a ha])
    have h2 : r1.byUUID.filter (fun p => isVictim v (meta.map Prod.fst) p.2) = [] :=
      List.filter_eq_nil_iff.mpr (fun a ha => by simp [hnov a ha])
    simp only [Registry.scanRemove, h1, h2]
    simp
  rw [hrem]
  exact addLoop_of_settled v meta r1 c1 hset

/-- C5 witness: a registry already holding the one walked file scans to
itself, and scanning again reproduces it exactly. -/
theorem scan_is_idempotent_witness :
    Registry.scan regScanned ("vol1") metaScanned 7 = some (regScanned, 7) :=
  scan_is_idempotent regScanned ("vol1") metaScanned 7 regScanned 7 (by decide) (by rfl)

/-! Lemmas for the buffered resource: what one Read delivers, what a
full read gathers, and what a successful Seek guarantees. -/

theorem take_take_length {α : Type} (t : List α) (n : Nat) :
    t.take ((t.take n).length) = t.take n := by
  rw [List.length_take]
  rcases Nat.le_total n t.length with h | h
  · rw [Nat.min_eq_left h]
  · rw [Nat.min_eq_right h, List.take_length, List.take_of_length_le h]

theorem bufferedRead_spec (b : BufFile) (n : Nat) (hInv : BufInv b) :
    (bufferedRead b n).1 =
        (b.content.drop (logicalPos b)).take (bufferedRead b n).1.length ∧
    (bufferedRead b n).1.length ≤ n ∧
    BufInv (bufferedRead b n).2 ∧
    (bufferedRead b n).2.content = b.content ∧
    logicalPos (bufferedRead b n).2 = logicalPos b + (bufferedRead b n).1.length ∧
    ((bufferedRead b n).1 = [] → n = 0 ∨ b.content.length ≤ logicalPos b) := by
  obtain ⟨hle0, hbuf⟩ := hInv
  by_cases hn : n = 0
  · have heq : bufferedRead b n = ([], b) := by
      rw [bufferedRead, if_pos hn]
    rw [heq]
    exact ⟨by simp, by simp, ⟨hle0, hbuf⟩, rfl, by simp, fun _ => Or.inl hn⟩
  · by_cases hbe : b.buf.isEmpty = true
    · have hbufnil : b.buf = [] := List.isEmpty_iff.mp hbe
      have hL : logicalPos b = b.pos := by simp [logicalPos, hbufnil]
      by_cases hcap : b.cap ≤ n
      · have heq : bufferedRead b n = ((b.content.drop b.pos).take n,
            { b with pos := b.pos + ((b.content.drop b.pos).take n).length }) := by
          rw [bufferedRead, if_neg hn, if_pos hbe, if_pos hcap]
        rw [heq]
        refine ⟨?_, ?_, ?_, rfl, ?_, ?_⟩
        · rw [hL]
          exact (take_take_length _ n).symm
        · rw [List.length_take]
          exact Nat.min_le_left n _
        · exact ⟨by simp [hbufnil], by simp [hbufnil]⟩
        · simp [logicalPos, hbufnil]
        · intro hnil
          rcases List.take_eq_nil_iff.mp hnil with h0 | h0
          · exact Or.inl h0
          · exact Or.inr (by rw [hL]; exact List.drop_eq_nil_iff.mp h0)
      · have heq : bufferedRead b n =
            (((b.content.drop b.pos).take b.cap).take n,
              { b with pos := b.pos + ((b.content.drop b.pos).take b.cap).length,
                       buf := ((b.content.drop b.pos).take b.cap).drop n }) := by
          rw [bufferedRead, if_neg hn, if_pos hbe, if_neg hcap]
        rw [heq]
        refine ⟨?_, ?_, ?_, rfl, ?_, ?_⟩
        · rw [hL, List.take_take]
          exact (take_take_length _ (min n b.cap)).symm
        · rw [List.take_take, List.length_take]
          omega
        · constructor
          · simp only [List.length_drop, List.length_take]
            omega
          · by_cases hfull : ((b.content.drop b.pos).take b.cap).length ≤ n
            · rw [List.drop_eq_nil_of_le hfull]
              simp
            · have hidx : b.pos + ((b.content.drop b.pos).take b.cap).length -
                  (((b.content.drop b.pos).take b.cap).drop n).length = b.pos + n := by
                simp only [List.length_drop]
                omega
              rw [hidx, List.drop_take, List.drop_drop, List.take_eq_take]
              simp only [List.length_drop, List.length_take]
              omega
        · simp only [logicalPos, List.length_drop, List.length_take, List.take_take,
            hbufnil, List.length_nil]
          omega
        · intro hnil
          rw [List.take_take] at hnil
          rcases List.take_eq_nil_iff.mp hnil with h0 | h0
          · omega
          · exact Or.inr (by rw [hL]; exact List.drop_eq_nil_iff.mp h0)
    · have hbne : ¬ b.buf.isEmpty = true := hbe
      have hbnnil : b.buf ≠ [] := by
        simpa [List.isEmpty_iff] using hbne
      have heq : bufferedRead b n = (b.buf.take n, { b with buf := b.buf.drop n }) := by
        rw [bufferedRead, if_neg hn, if_neg hbne]
      rw [heq]
      refine ⟨?_, ?_, ?_, rfl, ?_, ?_⟩
      · conv in b.buf.take n => rw [hbuf]
        rw [List.take_take, List.length_take]
        simp only [logicalPos]
      · rw [List.length_take]
        exact Nat.min_le_left n _
      · constructor
        · simp only [List.length_drop]
          omega
        · by_cases hfull : b.buf.length ≤ n
          · rw [List.drop_eq_nil_of_le hfull]
            simp
          · have hidx : b.pos - (b.buf.drop n).length =
                (b.pos - b.buf.length) + n := by
              simp only [List.length_drop]
              omega
            rw [hidx]
            conv in b.buf.drop n => rw [hbuf]
            rw [List.drop_take, List.drop_drop, List.take_eq_take]
            simp only [List.length_take, List.length_drop]
      · simp only [logicalPos, List.length_drop, List.length_take]
        omega
      · intro hnil
        rcases List.take_eq_nil_iff.mp hnil with h0 | h0
        · exact Or.inl h0
        · exact absurd h0 hbnnil

theorem readFullAux_spec (fuel : Nat) :
    ∀ (b : BufFile) (m : Nat), BufInv b → m ≤ fuel →
      (readFullAux fuel b m).1 = (b.content.drop (logicalPos b)).take m ∧
      BufInv (readFullAux fuel b m).2 ∧
      (readFullAux fuel b m).2.content = b.content := by
  induction fuel with
  | zero =>
    intro b m hInv hle
    have hm : m = 0 := by omega
    subst hm
    rw [readFullAux]
    exact ⟨by simp, hInv, rfl⟩
  | succ fuel ih =>
    intro b m hInv hle
    by_cases hm : m = 0
    · subst hm
      rw [readFullAux, if_pos rfl]
      exact ⟨by simp, hInv, rfl⟩
    · obtain ⟨hchunk, hlen, hInv2, hcont2, hlog2, heof⟩ := bufferedRead_spec b m hInv
      have heq : readFullAux (fuel + 1) b m =
          if (bufferedRead b m).1 = [] then ([], (bufferedRead b m).2)
          else
            ((bufferedRead b m).1 ++
                (readFullAux fuel (bufferedRead b m).2 (m - (bufferedRead b m).1.length)).1,
              (readFullAux fuel (bufferedRead b m).2 (m - (bufferedRead b m).1.length)).2) := by
        rw [readFullAux, if_neg hm]
      rw [heq]
      by_cases hbs : (bufferedRead b m).1 = []
      · rw [if_pos hbs]
        rcases heof hbs with h0 | h0
        · exact absurd h0 hm
        · refine ⟨?_, hInv2, hcont2⟩
          rw [List.drop_eq_nil_of_le h0]
          simp
      · rw [if_neg hbs]
        have hpos : 0 < (bufferedRead b m).1.length := List.length_pos.mpr hbs
        have hrec := ih (bufferedRead b m).2 (m - (bufferedRead b m).1.length) hInv2
          (by omega)
        obtain ⟨hrest1, hrest2, hrest3⟩ := hrec
        refine ⟨?_, hrest2, by rw [hrest3, hcont2]⟩
        show (bufferedRead b m).1 ++
            (readFullAux fuel (bufferedRead b m).2 (m - (bufferedRead b m).1.length)).1 =
          (b.content.drop (logicalPos b)).take m
        rw [hrest1, hlog2, hcont2]
        have hksplit : m = (bufferedRead b m).1.length + (m - (bufferedRead b m).1.length) := by
          omega
        conv_rhs => rw [hksplit, List.take_add]
        congr 1
        rw [List.drop_drop]

theorem fileSeek_ok {b : BufFile} {off2 : Int} {w : Whence} {newPos : Int}
    (h : fileSeek b off2 w = Except.ok newPos) : 0 ≤ newPos := by
  simp only [fileSeek] at h
  by_cases ht : (match w with
      | .start => off2
      | .current => (b.pos : Int) + off2
      | .fromEnd => ((b.content.length : Int)) + off2) < 0
  · rw [if_pos ht] at h
    cases h
  · rw [if_neg ht] at h
    injection h with h1
    omega

theorem bufferedSeek_spec (b : BufFile) (off : Int) (w : Whence) (p : Int)
    (b2 : BufFile) (hInv : BufInv b)
    (h : bufferedSeek b off w = Except.ok (p, b2)) :
    0 ≤ p ∧ BufInv b2 ∧ b2.content = b.content ∧ (logicalPos b2 : Int) = p ∧
    (w = .current → 0 < off → off ≤ (b.buf.length : Int) →
      b2.pos = b.pos ∧ b2.buf = b.buf.drop off.toNat) ∧
    (¬(w = .current ∧ off = 0) →
      ¬(w = .current ∧ 0 < off ∧ off ≤ (b.buf.length : Int)) →
      b2.buf = []) := by
  obtain ⟨hle0, hbuf⟩ := hInv
  rw [bufferedSeek] at h
  split at h
  · rename_i hc1
    obtain ⟨hw, hoff⟩ := hc1
    have hfs : fileSeek b 0 .current = Except.ok (b.pos : Int) := by
      simp [fileSeek]
    rw [hfs] at h
    injection h with h1
    injection h1 with h2 h3
    subst h3
    refine ⟨?_, ⟨hle0, hbuf⟩, rfl, ?_, ?_, ?_⟩
    · omega
    · simp only [logicalPos]
      omega
    · intro _ hlt hgt
      subst hoff
      exact absurd hlt (lt_irrefl 0)
    · intro hn1 _
      exact absurd ⟨hw, hoff⟩ hn1
  · split at h
    · rename_i hc1 hc2
      obtain ⟨hw, hpos, hle⟩ := hc2
      have htn : off.toNat ≤ b.buf.length := by omega
      have hfs : fileSeek { b with buf := b.buf.drop off.toNat } 0 .current =
          Except.ok (b.pos : Int) := by
        simp [fileSeek]
      simp only [hfs] at h
      injection h with h1
      injection h1 with h2 h3
      subst h3
      simp only [List.length_drop] at h2
      refine ⟨?_, ?_, rfl, ?_, ?_, ?_⟩
      · omega
      · constructor
        · simp only [List.length_drop]
          omega
        · by_cases hfull : b.buf.length ≤ off.toNat
          · rw [List.drop_eq_nil_of_le hfull]
            simp
          · have hidx : b.pos - (b.buf.drop off.toNat).length =
                (b.pos - b.buf.length) + off.toNat := by
              simp only [List.length_drop]
              omega
            show b.buf.drop off.toNat =
              (b.content.drop ({ b with buf := b.buf.drop off.toNat }.pos -
                (b.buf.drop off.toNat).length)).take (b.buf.drop off.toNat).length
            rw [show ({ b with buf := b.buf.drop off.toNat } : BufFile).pos = b.pos from rfl]
            rw [hidx]
            conv in b.buf.drop off.toNat => rw [hbuf]
            rw [List.drop_take, List.drop_drop, List.take_eq_take]
            simp only [List.length_take, List.length_drop]
      · simp only [logicalPos, List.length_drop]
        omega
      · intro _ _ _
        exact ⟨rfl, rfl⟩
      · intro _ hn2
        exact absurd ⟨hw, hpos, hle⟩ hn2
    · rename_i hc1 hc2
      split at h
      · rename_i hwc
        cases hfs : fileSeek b (off - (b.buf.length : Int)) w with
        | error e =>
          simp only [hfs] at h
          cases h
        | ok newPos =>
          simp only [hfs] at h
          injection h with h1
          injection h1 with h2 h3
          subst h3
          subst h2
          have hge := fileSeek_ok hfs
          refine ⟨hge, ⟨Nat.zero_le _, by simp⟩, rfl, ?_, ?_, fun _ _ => rfl⟩
          · simp only [logicalPos, List.length_nil, Nat.sub_zero]
            omega
          · intro hw hlt hgt
            exact absurd ⟨hw, hlt, hgt⟩ hc2
      · rename_i hwc
        cases hfs : fileSeek b off w with
        | error e =>
          simp only [hfs] at h
          cases h
        | ok newPos =>
          simp only [hfs] at h
          injection h with h1
          injection h1 with h2 h3
          subst h3
          subst h2
          have hge := fileSeek_ok hfs
          refine ⟨hge, ⟨Nat.zero_le _, by simp⟩, rfl, ?_, ?_, fun _ _ => rfl⟩
          · simp only [logicalPos, List.length_nil, Nat.sub_zero]
            omega
          · intro hw hlt hgt
            exact absurd ⟨hw, hlt, hgt⟩ hc2

theorem runOps_inv (content : List Nat) (bufferSize : Nat) (ops : List BufOp) :
    BufInv (runOps content bufferSize ops) ∧
    (runOps content bufferSize ops).content = content := by
  suffices hstep : ∀ (l : List BufOp) (b : BufFile), BufInv b → b.content = content →
      BufInv (l.foldl applyOp b) ∧ (l.foldl applyOp b).content = content by
    exact hstep ops (initBufFile content bufferSize) ⟨Nat.le_refl 0, rfl⟩ rfl
  intro l
  induction l with
  | nil =>
    intro b h1 h2
    exact ⟨h1, h2⟩
  | cons op l ih =>
    intro b h1 h2
    have hnext : BufInv (applyOp b op) ∧ (applyOp b op).content = content := by
      cases op with
      | read n =>
        obtain ⟨_, _, hInv2, hcont2, _, _⟩ := bufferedRead_spec b n h1
        exact ⟨hInv2, by rw [show applyOp b (BufOp.read n) = (bufferedRead b n).2
          from rfl, hcont2, h2]⟩
      | seek off w =>
        rw [show applyOp b (BufOp.seek off w) = (match bufferedSeek b off w with
          | .error _ => b
          | .ok r => r.2) from rfl]
        cases hs : bufferedSeek b off w with
        | error e => exact ⟨h1, h2⟩
        | ok r =>
          obtain ⟨_, hInv2, hcont2, _, _, _⟩ :=
            bufferedSeek_spec b off w r.1 r.2 h1 (by rw [hs])
          exact ⟨hInv2, by rw [hcont2, h2]⟩
    exact ih (applyOp b op) hnext.1 hnext.2

/-- C1: after any read/seek history against a freshly opened buffered
resource, a seek that succeeds with reported position p is exact: a
subsequent full read of m bytes returns precisely bytes p..p+m of the
underlying content (truncated only by end of file), never stale
buffered bytes.  Moreover a forward relative seek within the buffered
window only discards buffered bytes without moving the descriptor, and
every other position-moving seek leaves the buffer reset. -/
theorem buffered_seek_never_stale (content : List Nat) (bufferSize : Nat)
    (ops : List BufOp) (off : Int) (w : Whence) (p : Int) (b2 : BufFile) (m : Nat)
    (h : bufferedSeek (runOps content bufferSize ops) off w = Except.ok (p, b2)) :
    0 ≤ p ∧
    (readFull b2 m).1 = (content.drop p.toNat).take m ∧
    (w = .current → 0 < off →
      off ≤ ((runOps content bufferSize ops).buf.length : Int) →
      b2.pos = (runOps content bufferSize ops).pos ∧
      b2.buf = (runOps content bufferSize ops).buf.drop off.toNat) ∧
    (¬(w = .current ∧ off = 0) →
      ¬(w = .current ∧ 0 < off ∧
          off ≤ ((runOps content bufferSize ops).buf.length : Int)) →
      b2.buf = []) := by
  obtain ⟨hInv, hcont⟩ := runOps_inv content bufferSize ops
  obtain ⟨hp, hInv2, hcont2, hlog, hm1, hm2⟩ :=
    bufferedSeek_spec (runOps content bufferSize ops) off w p b2 hInv h
  refine ⟨hp, ?_, hm1, hm2⟩
  obtain ⟨hr1, _, _⟩ := readFullAux_spec m b2 m hInv2 (Nat.le_refl m)
  rw [readFull, hr1, hcont2, hcont]
  have hlp : logicalPos b2 = p.toNat := by omega
  rw [hlp]

/-- C1 witness: over the test file 0123456789ABCDEFGHIJ with buffer
size 5, reading 3 bytes and then seeking to absolute position 10 makes
the next 3-byte read return ABC (bytes 10..13), not stale buffer data. -/
theorem buffered_seek_never_stale_witness :
    0 ≤ (10 : Int) ∧
    (readFull ⟨contentW, 10, [], 16⟩ 3).1 = (contentW.drop (10 : Int).toNat).take 3 ∧
    (Whence.start = .current → 0 < (10 : Int) →
      (10 : Int) ≤ ((runOps contentW 5 [BufOp.read 3]).buf.length : Int) →
      (⟨contentW, 10, [], 16⟩ : BufFile).pos = (runOps contentW 5 [BufOp.read 3]).pos ∧
      (⟨contentW, 10, [], 16⟩ : BufFile).buf =
        (runOps contentW 5 [BufOp.read 3]).buf.drop (10 : Int).toNat) ∧
    (¬(Whence.start = .current ∧ (10 : Int) = 0) →
      ¬(Whence.start = .current ∧ 0 < (10 : Int) ∧
          (10 : Int) ≤ ((runOps contentW 5 [BufOp.read 3]).buf.length : Int)) →
      (⟨contentW, 10, [], 16⟩ : BufFile).buf = []) :=
  buffered_seek_never_stale contentW 5 [BufOp.read 3] 10 .start 10
    ⟨contentW, 10, [], 16⟩ 3 (by rfl)

end Streamer
